import Mathlib

/-!
# AgentPulse on-chain record store: a shallow embedding

This file embeds the AgentPulse Anchor program (`src/anchor/lib.rs`) in Lean:
the two instructions `record_evaluation` and `record_vote`, the two account
layouts `EvaluationRecord` and `VoteRecord`, and the program-derived-address
scheme keyed on `(kind tag, authority, project_id)` with seeds
`[b"eval"/b"vote", authority, project_id.to_le_bytes()]`.

The host-ledger machinery (PDA search, create-if-absent account
initialization, the clock sysvar) is not part of the repository; those parts
are modelled from the specification's description of the external record
store and clock oracle, and are marked `Modelled from the spec:` below.

Machine integers are embedded as `Nat`/`Int`; byte strings as `List Nat`
whose members are below 256; Rust `String` as the list of its characters'
UTF-8 byte sequences, so that Rust byte-slice semantics (including the
panic on a non-character-boundary index) is expressible.
-/

namespace AgentPulse

/-- A byte string: a list of naturals, each intended to be `< 256`. -/
abbrev Bytes := List Nat

/-- The predicate that a list of naturals is genuinely a byte string. -/
def ByteList (l : Bytes) : Prop := ∀ b ∈ l, b < 256

instance (l : Bytes) : Decidable (ByteList l) := by
  unfold ByteList; infer_instance

/-- Little-endian byte encoding of `n` into exactly `w` bytes
(`n.to_le_bytes` for the fixed-width Rust integer types). -/
def natToLeBytes : Nat → Nat → Bytes
  | 0, _ => []
  | w + 1, n => n % 256 :: natToLeBytes w (n / 256)

/-- `project_id.to_le_bytes()` for `project_id : u32` (4 bytes). -/
def u32ToLeBytes (n : Nat) : Bytes := natToLeBytes 4 n

/-- A 32-byte public identity, embedded as the natural it encodes. -/
abbrev Pubkey := Nat

/-- The 32 little-endian bytes of a `Pubkey` (`authority.key().as_ref()`). -/
def pubkeyToBytes (k : Pubkey) : Bytes := natToLeBytes 32 k

/-- The seed tag `b"eval"` of `RecordEvaluation` (lib.rs line 58). -/
def evalTag : Bytes := [0x65, 0x76, 0x61, 0x6c]

/-- The seed tag `b"vote"` of `RecordVote` (lib.rs line 74). -/
def voteTag : Bytes := [0x76, 0x6f, 0x74, 0x65]

/-- Modelled from the spec: the byte string hashed during address
derivation — the concatenation of the kind tag, the 32-byte authority, the
little-endian bytes of `project_id`, and the nonce byte (§4.1; the host
ledger's `find_program_address` is not in the repository). -/
def derivePreimage (tag : Bytes) (authority : Pubkey) (projectId nonce : Nat) : Bytes :=
  tag ++ pubkeyToBytes authority ++ u32ToLeBytes projectId ++ [nonce]

/-- Modelled from the spec: the bounded nonce search of address derivation.
`findAddressAux hash off tag a p fuel` tries nonces `fuel - 1, fuel - 2, …, 0`
in order, returning the first `(address, nonce)` whose hash lands in the
reserved non-signable subspace (`off` true), and `none` if none does. -/
def findAddressAux (hash : Bytes → Nat) (off : Nat → Bool) (tag : Bytes)
    (authority : Pubkey) (projectId : Nat) : Nat → Option (Nat × Nat)
  | 0 => none
  | n + 1 =>
    let a := hash (derivePreimage tag authority projectId n)
    if off a then some (a, n) else findAddressAux hash off tag authority projectId n

/-- Modelled from the spec: full address derivation — decrement the nonce
from 255 over the 256-value range (§4.1). Returns `(address, nonce)`. -/
def findProgramAddress (hash : Bytes → Nat) (off : Nat → Bool) (tag : Bytes)
    (authority : Pubkey) (projectId : Nat) : Option (Nat × Nat) :=
  findAddressAux hash off tag authority projectId 256

/-- Modelled from the spec: re-derive an address from a stored bump without
re-searching (§4.1: the nonce "can be stored in the record and used to
re-derive/verify the address later"). -/
def deriveWithBump (hash : Bytes → Nat) (tag : Bytes) (authority : Pubkey)
    (projectId bump : Nat) : Nat :=
  hash (derivePreimage tag authority projectId bump)

/-- A Rust `String` seen through its UTF-8 structure: the list of its
characters, each given as that character's UTF-8 byte sequence. -/
abbrev RustStr := List Bytes

/-- The UTF-8 bytes of a `RustStr` (what `String::as_bytes` exposes). -/
def strBytes (s : RustStr) : Bytes := s.flatten

/-- `String::len` in Rust: the UTF-8 byte length. -/
def byteLen (s : RustStr) : Nat := (strBytes s).length

/-- Rust prefix byte-slicing `&s[..n]`: `some` of the first `n` bytes when
`n ≤ s.len()` and `n` is a character boundary, `none` (a panic) otherwise. -/
def rustSliceTo : RustStr → Nat → Option Bytes
  | _, 0 => some []
  | [], _ + 1 => none
  | c :: cs, n + 1 =>
    if c.length ≤ n + 1 then
      (rustSliceTo cs (n + 1 - c.length)).map (fun t => c ++ t)
    else
      none

/-- `n` is a UTF-8 character boundary of `s`: the byte length of some
character-level prefix of `s`. -/
def isCharBoundary (s : RustStr) (n : Nat) : Bool :=
  (List.range (s.length + 1)).any fun k => byteLen (s.take k) == n

/-- The truncation step of `record_evaluation` (lib.rs line 20):
`project_name[..project_name.len().min(64)]`, `none` when the byte slice
panics. -/
def truncateName (s : RustStr) : Option Bytes :=
  rustSliceTo s (min (byteLen s) 64)

/-- The `EvaluationRecord` account layout (lib.rs lines 84–96). -/
structure EvaluationRecord where
  authority : Pubkey
  project_id : Nat
  project_name : Bytes
  score : Nat
  confidence : Nat
  reasoning_hash : Bytes
  timestamp : Int
  bump : Nat
  deriving DecidableEq, Repr

/-- The `VoteRecord` account layout (lib.rs lines 98–107). -/
structure VoteRecord where
  authority : Pubkey
  project_id : Nat
  vote_type : Nat
  reasoning_hash : Bytes
  timestamp : Int
  bump : Nat
  deriving DecidableEq, Repr

/-- A record stored in a ledger slot: either kind, sharing one address
space. -/
inductive StoredRecord where
  | eval (r : EvaluationRecord)
  | vote (r : VoteRecord)
  deriving DecidableEq, Repr

/-- Modelled from the spec: the external record store plus clock oracle —
a map from addresses to occupied slots and the current timestamp (§6). -/
structure LedgerState where
  slots : List (Nat × StoredRecord)
  clock : Int
  deriving DecidableEq, Repr

/-- Look up the record stored at `addr`, if any. -/
def lookupSlot (slots : List (Nat × StoredRecord)) (addr : Nat) : Option StoredRecord :=
  match slots.find? (fun p => p.1 == addr) with
  | some p => some p.2
  | none => none

/-- The error taxonomy of a record-creation request (§7): the derived
address is occupied; no valid nonce exists; or the instruction body
panics slicing `project_name` at a non-character-boundary index. -/
inductive RecordError where
  | alreadyExists
  | derivationExhausted
  | panicNonCharBoundary
  deriving DecidableEq, Repr

/-- The `record_evaluation` instruction (lib.rs lines 9–30) over the
modelled ledger: derive the PDA from `("eval", authority, project_id)`,
create-if-absent at that address, then populate the `EvaluationRecord`
fields exactly as the instruction body does (authority := the signer,
`project_name` truncated to `min(len, 64)` bytes, timestamp from the
clock, bump from the derivation). Errors leave the ledger unchanged. -/
def record_evaluation (hash : Bytes → Nat) (off : Nat → Bool) (st : LedgerState)
    (authority : Pubkey) (project_id : Nat) (project_name : RustStr)
    (score confidence : Nat) (reasoning_hash : Bytes) :
    Except RecordError (LedgerState × EvaluationRecord) :=
  match findProgramAddress hash off evalTag authority project_id with
  | none => .error .derivationExhausted
  | some (addr, bump) =>
    if (lookupSlot st.slots addr).isSome then
      .error .alreadyExists
    else
      match truncateName project_name with
      | none => .error .panicNonCharBoundary
      | some stored =>
        let r := { authority := authority, project_id := project_id,
                   project_name := stored, score := score,
                   confidence := confidence, reasoning_hash := reasoning_hash,
                   timestamp := st.clock, bump := bump : EvaluationRecord }
        .ok ({ st with slots := (addr, .eval r) :: st.slots }, r)

/-- The `record_vote` instruction (lib.rs lines 32–48) over the modelled
ledger: derive the PDA from `("vote", authority, project_id)`,
create-if-absent, populate the `VoteRecord` fields as the body does. -/
def record_vote (hash : Bytes → Nat) (off : Nat → Bool) (st : LedgerState)
    (authority : Pubkey) (project_id vote_type : Nat) (reasoning_hash : Bytes) :
    Except RecordError (LedgerState × VoteRecord) :=
  match findProgramAddress hash off voteTag authority project_id with
  | none => .error .derivationExhausted
  | some (addr, bump) =>
    if (lookupSlot st.slots addr).isSome then
      .error .alreadyExists
    else
      let r := { authority := authority, project_id := project_id,
                 vote_type := vote_type, reasoning_hash := reasoning_hash,
                 timestamp := st.clock, bump := bump : VoteRecord }
      .ok ({ st with slots := (addr, .vote r) :: st.slots }, r)

/-- A concrete hash usable in witnesses: the base-256 value of the byte
string with a leading 1 digit; injective on genuine byte strings. -/
def encBytes : Bytes → Nat
  | [] => 1
  | b :: t => encBytes t * 256 + b % 256

/-- A concrete non-signable-subspace test usable in witnesses: every
address off-curve. -/
def offAlways : Nat → Bool := fun _ => true

/-- `Except.isOk` spelled out for the modelled instruction results. -/
def resultOk {ε α : Type} : Except ε α → Bool
  | .ok _ => true
  | .error _ => false

instance {ε α : Type} [DecidableEq ε] [DecidableEq α] : DecidableEq (Except ε α) := by
  intro a b
  cases a <;> cases b <;>
    first
      | (apply isFalse; intro h; exact Except.noConfusion h)
      | (rename_i x y
         exact if h : x = y then isTrue (by rw [h]) else
           isFalse (fun hc => h (by cases hc; rfl)))

/-- Test fixture: an all-ASCII name of `n` characters (`n` bytes). -/
def asciiName (n : Nat) : RustStr := List.replicate n [97]

/-- Test fixture: 63 ASCII bytes followed by the 3-byte character U+20AC,
66 bytes in all, whose byte index 64 is not a character boundary. -/
def badName63 : RustStr := List.replicate 63 [97] ++ [[226, 130, 172]]

/-- Test fixture: a 32-byte all-zero reasoning hash. -/
def zeros32 : Bytes := List.replicate 32 0

/-- Test fixture: the empty ledger at clock 0. -/
def emptyLedger : LedgerState := ⟨[], 0⟩

/-- The exposed operation surface as a transition relation (§5): one step
is one successful instruction; failed requests have no side effects, so
only successful creates relate two states. -/
inductive LedgerStep (hash : Bytes → Nat) (off : Nat → Bool) :
    LedgerState → LedgerState → Prop where
  | eval {st st' : LedgerState} (authority : Pubkey) (project_id : Nat)
      (project_name : RustStr) (score confidence : Nat) (reasoning_hash : Bytes)
      (r : EvaluationRecord)
      (h : record_evaluation hash off st authority project_id project_name score
        confidence reasoning_hash = .ok (st', r)) : LedgerStep hash off st st'
  | vote {st st' : LedgerState} (authority : Pubkey) (project_id vote_type : Nat)
      (reasoning_hash : Bytes) (v : VoteRecord)
      (h : record_vote hash off st authority project_id vote_type reasoning_hash
        = .ok (st', v)) : LedgerStep hash off st st'

/-- Test fixture: a pre-existing vote record occupying address 999. -/
def voteFixture : VoteRecord := ⟨1, 2, 3, zeros32, 4, 255⟩

/-- Test fixture: a ledger at clock 5 holding `voteFixture` at address 999. -/
def ledgerWithVote : LedgerState := ⟨[(999, .vote voteFixture)], 5⟩

/-- Test fixture: the record created by
`record_evaluation encBytes offAlways emptyLedger 3 5 (asciiName 10) 87 92 zeros32`. -/
def evalFixture : EvaluationRecord := ⟨3, 5, List.replicate 10 97, 87, 92, zeros32, 0, 255⟩

/-- Test fixture: the ledger after creating `evalFixture` in `emptyLedger`. -/
def ledgerAfterEval : LedgerState :=
  ⟨[(deriveWithBump encBytes evalTag 3 5 255, .eval evalFixture)], 0⟩

/-- Test fixture: the record created by the same evaluation request issued
from `ledgerWithVote` instead of `emptyLedger` (note the clock 5). -/
def evalFixtureB : EvaluationRecord := ⟨3, 5, List.replicate 4 97, 11, 12, zeros32, 5, 255⟩

/-- Test fixture: `ledgerWithVote` after creating `evalFixtureB`. -/
def ledgerAfterEvalB : LedgerState :=
  ⟨[(deriveWithBump encBytes evalTag 3 5 255, .eval evalFixtureB),
    (999, .vote voteFixture)], 5⟩

/-- Test fixture: the record created by
`record_vote encBytes offAlways emptyLedger 1 2 3 zeros32`. -/
def voteFixtureB : VoteRecord := ⟨1, 2, 3, zeros32, 0, 255⟩

/-- Test fixture: the ledger after creating `voteFixtureB` in `emptyLedger`. -/
def ledgerAfterVote : LedgerState :=
  ⟨[(deriveWithBump encBytes voteTag 1 2 255, .vote voteFixtureB)], 0⟩

/-! ## Basic facts about the byte encodings -/

theorem natToLeBytes_length (w n : Nat) : (natToLeBytes w n).length = w := by
  induction w generalizing n with
  | zero => rfl
  | succ w ih => simp [natToLeBytes, ih]

theorem natToLeBytes_byteList (w n : Nat) : ByteList (natToLeBytes w n) := by
  induction w generalizing n with
  | zero => intro b hb; simp [natToLeBytes] at hb
  | succ w ih =>
    intro b hb
    simp only [natToLeBytes, List.mem_cons] at hb
    rcases hb with hb | hb
    · subst hb; exact Nat.mod_lt _ (by norm_num)
    · exact ih (n / 256) b hb

theorem natToLeBytes_inj (w : Nat) : ∀ m n : Nat, m < 256 ^ w → n < 256 ^ w →
    natToLeBytes w m = natToLeBytes w n → m = n := by
  induction w with
  | zero => intro m n hm hn _; simp [pow_zero] at hm hn; omega
  | succ w ih =>
    intro m n hm hn h
    simp only [natToLeBytes, List.cons.injEq] at h
    have hdm : m / 256 < 256 ^ w := by
      rw [Nat.div_lt_iff_lt_mul (by norm_num)]
      calc m < 256 ^ (w + 1) := hm
        _ = 256 ^ w * 256 := by rw [pow_succ]
    have hdn : n / 256 < 256 ^ w := by
      rw [Nat.div_lt_iff_lt_mul (by norm_num)]
      calc n < 256 ^ (w + 1) := hn
        _ = 256 ^ w * 256 := by rw [pow_succ]
    have h2 := ih (m / 256) (n / 256) hdm hdn h.2
    omega

theorem encBytes_pos (l : Bytes) : 1 ≤ encBytes l := by
  induction l with
  | nil => simp [encBytes]
  | cons b t ih => simp only [encBytes]; omega

theorem encBytes_injOn : ∀ l₁ l₂ : Bytes, ByteList l₁ → ByteList l₂ →
    encBytes l₁ = encBytes l₂ → l₁ = l₂ := by
  intro l₁
  induction l₁ with
  | nil =>
    intro l₂ _ hb2 h
    cases l₂ with
    | nil => rfl
    | cons b t =>
      exfalso
      have ht := encBytes_pos t
      simp only [encBytes] at h
      omega
  | cons b₁ t₁ ih =>
    intro l₂ hb1 hb2 h
    cases l₂ with
    | nil =>
      exfalso
      have ht := encBytes_pos t₁
      simp only [encBytes] at h
      omega
    | cons b₂ t₂ =>
      have hb₁ : b₁ < 256 := hb1 b₁ (List.mem_cons_self _ _)
      have hb₂ : b₂ < 256 := hb2 b₂ (List.mem_cons_self _ _)
      simp only [encBytes, Nat.mod_eq_of_lt hb₁, Nat.mod_eq_of_lt hb₂] at h
      have hb : b₁ = b₂ := by omega
      have ht : encBytes t₁ = encBytes t₂ := by omega
      have := ih t₂ (fun x hx => hb1 x (List.mem_cons_of_mem _ hx))
        (fun x hx => hb2 x (List.mem_cons_of_mem _ hx)) ht
      rw [hb, this]

/-! ## Facts about the derivation preimage -/

theorem derivePreimage_byteList (tag : Bytes) (a p n : Nat)
    (htag : ByteList tag) (hn : n < 256) :
    ByteList (derivePreimage tag a p n) := by
  intro b hb
  simp only [derivePreimage, List.mem_append, List.mem_singleton] at hb
  rcases hb with ((hb | hb) | hb) | hb
  · exact htag b hb
  · exact natToLeBytes_byteList 32 a b hb
  · exact natToLeBytes_byteList 4 p b hb
  · subst hb; exact hn

theorem derivePreimage_inj (t₁ t₂ : Bytes) (a₁ p₁ n₁ a₂ p₂ n₂ : Nat)
    (hl₁ : t₁.length = 4) (hl₂ : t₂.length = 4)
    (h : derivePreimage t₁ a₁ p₁ n₁ = derivePreimage t₂ a₂ p₂ n₂) :
    t₁ = t₂ ∧ pubkeyToBytes a₁ = pubkeyToBytes a₂ ∧
      u32ToLeBytes p₁ = u32ToLeBytes p₂ ∧ n₁ = n₂ := by
  simp only [derivePreimage, List.append_assoc] at h
  obtain ⟨ht, h⟩ := List.append_inj h (by rw [hl₁, hl₂])
  obtain ⟨ha, h⟩ := List.append_inj h
    (by rw [pubkeyToBytes, pubkeyToBytes, natToLeBytes_length, natToLeBytes_length])
  obtain ⟨hp, h⟩ := List.append_inj h
    (by rw [u32ToLeBytes, u32ToLeBytes, natToLeBytes_length, natToLeBytes_length])
  exact ⟨ht, ha, hp, List.singleton_injective h⟩

/-! ## Characterization of the bounded nonce search -/

theorem findAddressAux_succ (hash : Bytes → Nat) (off : Nat → Bool)
    (tag : Bytes) (a p fuel : Nat) :
    findAddressAux hash off tag a p (fuel + 1) =
      if off (hash (derivePreimage tag a p fuel)) then
        some (hash (derivePreimage tag a p fuel), fuel)
      else findAddressAux hash off tag a p fuel := rfl

theorem findAddressAux_eq_some_iff (hash : Bytes → Nat) (off : Nat → Bool)
    (tag : Bytes) (a p : Nat) :
    ∀ fuel addr n, findAddressAux hash off tag a p fuel = some (addr, n) ↔
      n < fuel ∧ off (hash (derivePreimage tag a p n)) = true ∧
        addr = hash (derivePreimage tag a p n) ∧
        ∀ m, n < m → m < fuel → off (hash (derivePreimage tag a p m)) = false := by
  intro fuel
  induction fuel with
  | zero =>
    intro addr n
    constructor
    · intro h; exact absurd h (by simp [findAddressAux])
    · rintro ⟨hn, -⟩; exact absurd hn (by omega)
  | succ fuel ih =>
    intro addr n
    rw [findAddressAux_succ]
    cases hoff : off (hash (derivePreimage tag a p fuel)) with
    | true =>
      rw [if_pos rfl]
      constructor
      · intro h
        obtain ⟨hA, hn⟩ : addr = hash (derivePreimage tag a p fuel) ∧ n = fuel := by
          have h' := Option.some.inj h
          exact ⟨(congrArg Prod.fst h').symm, (congrArg Prod.snd h').symm⟩
        subst hA; subst hn
        exact ⟨Nat.lt_succ_self _, hoff, rfl, fun m hm hm' => absurd hm (by omega)⟩
      · rintro ⟨hn, h1, h2, hmax⟩
        have hnn : n = fuel := by
          by_contra hne
          have hlt : n < fuel := by omega
          have hf := hmax fuel hlt (Nat.lt_succ_self _)
          rw [hf] at hoff
          exact absurd hoff (by simp)
        subst hnn
        rw [h2]
    | false =>
      rw [if_neg (by simp), ih addr n]
      constructor
      · rintro ⟨hn, h1, h2, hmax⟩
        refine ⟨by omega, h1, h2, fun m hm hm' => ?_⟩
        rcases Nat.lt_or_ge m fuel with hlt | hge
        · exact hmax m hm hlt
        · have hmf : m = fuel := by omega
          rw [hmf]; exact hoff
      · rintro ⟨hn, h1, h2, hmax⟩
        have hne : n ≠ fuel := by
          intro heq
          rw [heq, hoff] at h1
          exact absurd h1 (by simp)
        exact ⟨by omega, h1, h2, fun m hm hm' => hmax m hm (by omega)⟩

theorem findAddressAux_eq_none_iff (hash : Bytes → Nat) (off : Nat → Bool)
    (tag : Bytes) (a p : Nat) :
    ∀ fuel, findAddressAux hash off tag a p fuel = none ↔
      ∀ m, m < fuel → off (hash (derivePreimage tag a p m)) = false := by
  intro fuel
  induction fuel with
  | zero =>
    constructor
    · intro _ m hm; exact absurd hm (by omega)
    · intro _; rfl
  | succ fuel ih =>
    rw [findAddressAux_succ]
    cases hoff : off (hash (derivePreimage tag a p fuel)) with
    | true =>
      rw [if_pos rfl]
      constructor
      · intro h; exact absurd h (by simp)
      · intro h
        have hf := h fuel (Nat.lt_succ_self _)
        rw [hf] at hoff
        exact absurd hoff (by simp)
    | false =>
      rw [if_neg (by simp), ih]
      constructor
      · intro h m hm
        rcases Nat.lt_or_ge m fuel with hlt | hge
        · exact h m hlt
        · have hmf : m = fuel := by omega
          rw [hmf]; exact hoff
      · intro h m hm; exact h m (by omega)

theorem findProgramAddress_bump_lt (hash : Bytes → Nat) (off : Nat → Bool)
    (tag : Bytes) (a p addr n : Nat)
    (h : findProgramAddress hash off tag a p = some (addr, n)) : n < 256 :=
  ((findAddressAux_eq_some_iff hash off tag a p 256 addr n).mp h).1

theorem findProgramAddress_addr_eq (hash : Bytes → Nat) (off : Nat → Bool)
    (tag : Bytes) (a p addr n : Nat)
    (h : findProgramAddress hash off tag a p = some (addr, n)) :
    addr = hash (derivePreimage tag a p n) :=
  ((findAddressAux_eq_some_iff hash off tag a p 256 addr n).mp h).2.2.1

/-! ## The Rust byte-slice and truncation semantics -/

theorem rustSliceTo_zero (s : RustStr) : rustSliceTo s 0 = some [] := by
  cases s <;> rfl

theorem rustSliceTo_take (s : RustStr) :
    ∀ k, rustSliceTo s (byteLen (s.take k)) =
      some ((strBytes s).take (byteLen (s.take k))) := by
  induction s with
  | nil => intro k; simp [byteLen, strBytes, rustSliceTo]
  | cons c cs ih =>
    intro k
    cases k with
    | zero => simp [byteLen, strBytes, rustSliceTo_zero]
    | succ j =>
      have hL : byteLen ((c :: cs).take (j + 1)) = c.length + byteLen (cs.take j) := by
        simp [byteLen, strBytes]
      rw [hL]
      rcases Nat.eq_zero_or_pos (c.length + byteLen (cs.take j)) with h0 | hpos
      · rw [h0, rustSliceTo_zero]; simp
      · obtain ⟨m, hm⟩ : ∃ m, c.length + byteLen (cs.take j) = m + 1 :=
          ⟨c.length + byteLen (cs.take j) - 1, by omega⟩
        rw [hm]
        have hle : c.length ≤ m + 1 := by omega
        simp only [rustSliceTo, if_pos hle]
        have hsub : m + 1 - c.length = byteLen (cs.take j) := by omega
        have hbytes : strBytes (c :: cs) = c ++ strBytes cs := by
          simp [strBytes]
        rw [hsub, ih j, hbytes, ← hm, List.take_append]
        simp

theorem isCharBoundary_iff (s : RustStr) (n : Nat) :
    isCharBoundary s n = true ↔ ∃ k, byteLen (s.take k) = n := by
  simp only [isCharBoundary, List.any_eq_true, List.mem_range, beq_iff_eq]
  constructor
  · rintro ⟨k, _, hk⟩; exact ⟨k, hk⟩
  · rintro ⟨k, hk⟩
    refine ⟨min k s.length, by omega, ?_⟩
    rcases Nat.le_total k s.length with h | h
    · rwa [Nat.min_eq_left h]
    · rw [Nat.min_eq_right h, List.take_length, ← List.take_of_length_le h, hk]

theorem rustSliceTo_of_isCharBoundary (s : RustStr) (n : Nat)
    (h : isCharBoundary s n = true) :
    rustSliceTo s n = some ((strBytes s).take n) := by
  obtain ⟨k, hk⟩ := (isCharBoundary_iff s n).mp h
  rw [← hk]; exact rustSliceTo_take s k

theorem isCharBoundary_byteLen (s : RustStr) : isCharBoundary s (byteLen s) = true :=
  (isCharBoundary_iff s (byteLen s)).mpr ⟨s.length, by rw [List.take_length]⟩

theorem truncateName_of_isCharBoundary (s : RustStr)
    (h : isCharBoundary s (min (byteLen s) 64) = true) :
    truncateName s = some ((strBytes s).take (min (byteLen s) 64)) := by
  rw [truncateName, rustSliceTo_of_isCharBoundary s _ h]

theorem truncateName_short (s : RustStr) (h : byteLen s ≤ 64) :
    truncateName s = some (strBytes s) := by
  rw [truncateName, Nat.min_eq_left h,
    rustSliceTo_of_isCharBoundary s _ (isCharBoundary_byteLen s)]
  congr 1
  exact List.take_of_length_le (le_of_eq rfl)

/-! ## Inversion of the two instructions -/

theorem lookupSlot_eq_none (slots : List (Nat × StoredRecord)) (addr : Nat)
    (h : (lookupSlot slots addr).isSome = false) : lookupSlot slots addr = none := by
  cases hm : lookupSlot slots addr with
  | none => rfl
  | some v => rw [hm] at h; exact absurd h (by simp)

theorem lookupSlot_cons (a : Nat) (v : StoredRecord) (slots : List (Nat × StoredRecord))
    (b : Nat) :
    lookupSlot ((a, v) :: slots) b = if a = b then some v else lookupSlot slots b := by
  by_cases hab : a = b
  · simp [lookupSlot, List.find?, hab]
  · simp only [lookupSlot, List.find?]
    have : ((a, v).1 == b) = false := by simpa using hab
    rw [this, if_neg hab]

theorem record_evaluation_ok (hash : Bytes → Nat) (off : Nat → Bool) (st : LedgerState)
    (authority : Pubkey) (project_id : Nat) (project_name : RustStr)
    (score confidence : Nat) (reasoning_hash : Bytes)
    (st' : LedgerState) (r : EvaluationRecord)
    (h : record_evaluation hash off st authority project_id project_name score
        confidence reasoning_hash = .ok (st', r)) :
    findProgramAddress hash off evalTag authority project_id =
      some (deriveWithBump hash evalTag authority project_id r.bump, r.bump) ∧
    lookupSlot st.slots (deriveWithBump hash evalTag authority project_id r.bump) = none ∧
    truncateName project_name = some r.project_name ∧
    r.authority = authority ∧ r.project_id = project_id ∧ r.score = score ∧
    r.confidence = confidence ∧ r.reasoning_hash = reasoning_hash ∧
    r.timestamp = st.clock ∧ st'.clock = st.clock ∧
    st'.slots = (deriveWithBump hash evalTag authority project_id r.bump,
      StoredRecord.eval r) :: st.slots := by
  unfold record_evaluation at h
  split at h
  · exact Except.noConfusion h
  next addr bump hf =>
    split at h
    · exact Except.noConfusion h
    next hocc =>
      split at h
      · exact Except.noConfusion h
      next stored ht =>
        simp only [Except.ok.injEq, Prod.mk.injEq] at h
        obtain ⟨hst, hr⟩ := h
        have hoccF : (lookupSlot st.slots addr).isSome = false := by
          simpa using hocc
        have haddr : addr = deriveWithBump hash evalTag authority project_id bump :=
          findProgramAddress_addr_eq hash off evalTag authority project_id addr bump hf
        have hbump : r.bump = bump := by rw [← hr]
        have hname : r.project_name = stored := by rw [← hr]
        refine ⟨?_, ?_, ?_, by rw [← hr], by rw [← hr], by rw [← hr], by rw [← hr],
          by rw [← hr], by rw [← hr], by rw [← hst], ?_⟩
        · rw [hbump, ← haddr]; exact hf
        · rw [hbump, ← haddr]; exact lookupSlot_eq_none st.slots addr hoccF
        · rw [hname]; exact ht
        · rw [← hst, hbump, ← haddr, ← hr]

theorem record_vote_ok (hash : Bytes → Nat) (off : Nat → Bool) (st : LedgerState)
    (authority : Pubkey) (project_id vote_type : Nat) (reasoning_hash : Bytes)
    (st' : LedgerState) (v : VoteRecord)
    (h : record_vote hash off st authority project_id vote_type reasoning_hash
      = .ok (st', v)) :
    findProgramAddress hash off voteTag authority project_id =
      some (deriveWithBump hash voteTag authority project_id v.bump, v.bump) ∧
    lookupSlot st.slots (deriveWithBump hash voteTag authority project_id v.bump) = none ∧
    v.authority = authority ∧ v.project_id = project_id ∧ v.vote_type = vote_type ∧
    v.reasoning_hash = reasoning_hash ∧ v.timestamp = st.clock ∧ st'.clock = st.clock ∧
    st'.slots = (deriveWithBump hash voteTag authority project_id v.bump,
      StoredRecord.vote v) :: st.slots := by
  unfold record_vote at h
  split at h
  · exact Except.noConfusion h
  next addr bump hf =>
    split at h
    · exact Except.noConfusion h
    next hocc =>
      simp only [Except.ok.injEq, Prod.mk.injEq] at h
      obtain ⟨hst, hr⟩ := h
      have hoccF : (lookupSlot st.slots addr).isSome = false := by
        simpa using hocc
      have haddr : addr = deriveWithBump hash voteTag authority project_id bump :=
        findProgramAddress_addr_eq hash off voteTag authority project_id addr bump hf
      have hbump : v.bump = bump := by rw [← hr]
      refine ⟨?_, ?_, by rw [← hr], by rw [← hr], by rw [← hr], by rw [← hr],
        by rw [← hr], by rw [← hst], ?_⟩
      · rw [hbump, ← haddr]; exact hf
      · rw [hbump, ← haddr]; exact lookupSlot_eq_none st.slots addr hoccF
      · rw [← hst, hbump, ← haddr, ← hr]

/-! ## Forward evaluation of the two instructions -/

theorem record_evaluation_occupied (hash : Bytes → Nat) (off : Nat → Bool)
    (st : LedgerState) (authority : Pubkey) (project_id : Nat)
    (project_name : RustStr) (score confidence : Nat) (reasoning_hash : Bytes)
    (addr bump : Nat)
    (hf : findProgramAddress hash off evalTag authority project_id = some (addr, bump))
    (hocc : (lookupSlot st.slots addr).isSome = true) :
    record_evaluation hash off st authority project_id project_name score confidence
      reasoning_hash = .error .alreadyExists := by
  unfold record_evaluation
  split
  · next heq => rw [hf] at heq; exact Option.noConfusion heq
  · next a b heq =>
    rw [hf] at heq
    have ha : addr = a := congrArg Prod.fst (Option.some.inj heq)
    subst ha
    rw [if_pos hocc]

theorem record_evaluation_creates (hash : Bytes → Nat) (off : Nat → Bool)
    (st : LedgerState) (authority : Pubkey) (project_id : Nat)
    (project_name : RustStr) (score confidence : Nat) (reasoning_hash : Bytes)
    (addr bump : Nat) (stored : Bytes)
    (hf : findProgramAddress hash off evalTag authority project_id = some (addr, bump))
    (habs : lookupSlot st.slots addr = none)
    (ht : truncateName project_name = some stored) :
    record_evaluation hash off st authority project_id project_name score confidence
      reasoning_hash =
      .ok ({ st with slots := (addr, StoredRecord.eval ⟨authority, project_id, stored,
              score, confidence, reasoning_hash, st.clock, bump⟩) :: st.slots },
        ⟨authority, project_id, stored, score, confidence, reasoning_hash,
          st.clock, bump⟩) := by
  unfold record_evaluation
  split
  · next heq => rw [hf] at heq; exact Option.noConfusion heq
  · next a b heq =>
    rw [hf] at heq
    have ha : addr = a := congrArg Prod.fst (Option.some.inj heq)
    have hb : bump = b := congrArg Prod.snd (Option.some.inj heq)
    subst ha; subst hb
    rw [if_neg (by rw [habs]; simp), ht]

theorem record_vote_creates (hash : Bytes → Nat) (off : Nat → Bool)
    (st : LedgerState) (authority : Pubkey) (project_id vote_type : Nat)
    (reasoning_hash : Bytes) (addr bump : Nat)
    (hf : findProgramAddress hash off voteTag authority project_id = some (addr, bump))
    (habs : lookupSlot st.slots addr = none) :
    record_vote hash off st authority project_id vote_type reasoning_hash =
      .ok ({ st with slots := (addr, StoredRecord.vote ⟨authority, project_id,
              vote_type, reasoning_hash, st.clock, bump⟩) :: st.slots },
        ⟨authority, project_id, vote_type, reasoning_hash, st.clock, bump⟩) := by
  unfold record_vote
  split
  · next heq => rw [hf] at heq; exact Option.noConfusion heq
  · next a b heq =>
    rw [hf] at heq
    have ha : addr = a := congrArg Prod.fst (Option.some.inj heq)
    have hb : bump = b := congrArg Prod.snd (Option.some.inj heq)
    subst ha; subst hb
    rw [if_neg (by rw [habs]; simp)]

theorem lookupSlot_preserved (hash : Bytes → Nat) (off : Nat → Bool)
    (st st' : LedgerState) (addr : Nat) (rec0 : StoredRecord)
    (hs : LedgerStep hash off st st')
    (h : lookupSlot st.slots addr = some rec0) :
    lookupSlot st'.slots addr = some rec0 := by
  cases hs with
  | eval authority project_id project_name score confidence reasoning_hash r hok =>
    obtain ⟨-, habs, -, -, -, -, -, -, -, -, hslots⟩ :=
      record_evaluation_ok _ _ _ _ _ _ _ _ _ _ _ hok
    rw [hslots, lookupSlot_cons]
    by_cases he : deriveWithBump hash evalTag authority project_id r.bump = addr
    · rw [he] at habs; rw [h] at habs; exact Option.noConfusion habs
    · rw [if_neg he]; exact h
  | vote authority project_id vote_type reasoning_hash v hok =>
    obtain ⟨-, habs, -, -, -, -, -, -, hslots⟩ :=
      record_vote_ok _ _ _ _ _ _ _ _ _ hok
    rw [hslots, lookupSlot_cons]
    by_cases he : deriveWithBump hash voteTag authority project_id v.bump = addr
    · rw [he] at habs; rw [h] at habs; exact Option.noConfusion habs
    · rw [if_neg he]; exact h

/-! ## The claims -/

/-- C1: once `record_evaluation` has succeeded for `(authority, project_id)`,
the slot at the derived address went from absent to present holding the new
record, a second `record_evaluation` for the same key fails with
AlreadyExists, and the first stored record is unchanged. -/
theorem record_evaluation_at_most_once (hash : Bytes → Nat) (off : Nat → Bool)
    (st st' : LedgerState) (authority : Pubkey) (project_id : Nat)
    (name₁ name₂ : RustStr) (score₁ confidence₁ score₂ confidence₂ : Nat)
    (rh₁ rh₂ : Bytes) (r : EvaluationRecord)
    (hok : record_evaluation hash off st authority project_id name₁ score₁
      confidence₁ rh₁ = .ok (st', r)) :
    lookupSlot st.slots (deriveWithBump hash evalTag authority project_id r.bump)
      = none ∧
    lookupSlot st'.slots (deriveWithBump hash evalTag authority project_id r.bump)
      = some (.eval r) ∧
    record_evaluation hash off st' authority project_id name₂ score₂ confidence₂ rh₂
      = .error .alreadyExists := by
  obtain ⟨hf, habs, -, -, -, -, -, -, -, -, hslots⟩ :=
    record_evaluation_ok _ _ _ _ _ _ _ _ _ _ _ hok
  have hpres : lookupSlot st'.slots
      (deriveWithBump hash evalTag authority project_id r.bump) = some (.eval r) := by
    rw [hslots, lookupSlot_cons, if_pos rfl]
  refine ⟨habs, hpres, ?_⟩
  exact record_evaluation_occupied hash off st' authority project_id name₂ score₂
    confidence₂ rh₂ _ r.bump hf (by rw [hpres]; rfl)

/-- C1 witness: a concrete create in the empty ledger followed by a second
create for the same key, which fails with AlreadyExists. -/
theorem record_evaluation_at_most_once_witness :
    lookupSlot emptyLedger.slots (deriveWithBump encBytes evalTag 3 5 evalFixture.bump)
      = none ∧
    lookupSlot ledgerAfterEval.slots
      (deriveWithBump encBytes evalTag 3 5 evalFixture.bump) = some (.eval evalFixture) ∧
    record_evaluation encBytes offAlways ledgerAfterEval 3 5 (asciiName 7) 1 2 zeros32
      = .error .alreadyExists :=
  record_evaluation_at_most_once encBytes offAlways emptyLedger ledgerAfterEval 3 5
    (asciiName 10) (asciiName 7) 87 92 1 2 zeros32 zeros32 evalFixture (by decide)

/-- C4: address derivation has no hidden state — two successful evaluation
creates for the same `(authority, project_id)` issued against arbitrary
(and arbitrarily different) ledger states store the same bump, and both
agree with the unique `(address, bump)` pair of the pure derivation. -/
theorem derive_eval_no_hidden_state (hash : Bytes → Nat) (off : Nat → Bool)
    (st₁ st₂ st₁' st₂' : LedgerState) (authority : Pubkey) (project_id : Nat)
    (name₁ name₂ : RustStr) (score₁ confidence₁ score₂ confidence₂ : Nat)
    (rh₁ rh₂ : Bytes) (r₁ r₂ : EvaluationRecord)
    (h₁ : record_evaluation hash off st₁ authority project_id name₁ score₁
      confidence₁ rh₁ = .ok (st₁', r₁))
    (h₂ : record_evaluation hash off st₂ authority project_id name₂ score₂
      confidence₂ rh₂ = .ok (st₂', r₂)) :
    r₁.bump = r₂.bump ∧
    findProgramAddress hash off evalTag authority project_id =
      some (deriveWithBump hash evalTag authority project_id r₁.bump, r₁.bump) := by
  have hf₁ := (record_evaluation_ok _ _ _ _ _ _ _ _ _ _ _ h₁).1
  have hf₂ := (record_evaluation_ok _ _ _ _ _ _ _ _ _ _ _ h₂).1
  have hpair := Option.some.inj (hf₁.symm.trans hf₂)
  exact ⟨congrArg Prod.snd hpair, hf₁⟩

/-- C4 witness: the same key evaluated from the empty ledger and from a
ledger already holding an unrelated vote record, with different names,
scores and clocks, lands on the identical `(address, bump)` pair. -/
theorem derive_eval_no_hidden_state_witness :
    evalFixture.bump = evalFixtureB.bump ∧
    findProgramAddress encBytes offAlways evalTag 3 5 =
      some (deriveWithBump encBytes evalTag 3 5 evalFixture.bump, evalFixture.bump) :=
  derive_eval_no_hidden_state encBytes offAlways emptyLedger ledgerWithVote
    ledgerAfterEval ledgerAfterEvalB 3 5 (asciiName 10) (asciiName 4) 87 92 11 12
    zeros32 zeros32 evalFixture evalFixtureB (by decide) (by decide)

/-- C6: after a successful `record_evaluation`, reading the record back at
the derived address yields exactly the score, confidence, reasoning hash
and project id passed in; the authority field is the signer and the
timestamp is the clock oracle's value at creation. -/
theorem record_evaluation_field_fidelity (hash : Bytes → Nat) (off : Nat → Bool)
    (st st' : LedgerState) (authority : Pubkey) (project_id : Nat)
    (name : RustStr) (score confidence : Nat) (reasoning_hash : Bytes)
    (r : EvaluationRecord)
    (hok : record_evaluation hash off st authority project_id name score confidence
      reasoning_hash = .ok (st', r)) :
    r.score = score ∧ r.confidence = confidence ∧
    r.reasoning_hash = reasoning_hash ∧ r.project_id = project_id ∧
    r.authority = authority ∧ r.timestamp = st.clock ∧
    lookupSlot st'.slots (deriveWithBump hash evalTag authority project_id r.bump)
      = some (.eval r) := by
  obtain ⟨-, -, -, hauth, hpid, hsc, hcf, hrh, hts, -, hslots⟩ :=
    record_evaluation_ok _ _ _ _ _ _ _ _ _ _ _ hok
  exact ⟨hsc, hcf, hrh, hpid, hauth, hts, by rw [hslots, lookupSlot_cons, if_pos rfl]⟩

/-- C6 witness: writing score 87, confidence 92 and a fixed 32-byte hash
and reading the record back yields those exact values, signer 3 and the
clock value 0 of the creating state. -/
theorem record_evaluation_field_fidelity_witness :
    evalFixture.score = 87 ∧ evalFixture.confidence = 92 ∧
    evalFixture.reasoning_hash = zeros32 ∧ evalFixture.project_id = 5 ∧
    evalFixture.authority = 3 ∧ evalFixture.timestamp = emptyLedger.clock ∧
    lookupSlot ledgerAfterEval.slots
      (deriveWithBump encBytes evalTag 3 5 evalFixture.bump) = some (.eval evalFixture) :=
  record_evaluation_field_fidelity encBytes offAlways emptyLedger ledgerAfterEval
    3 5 (asciiName 10) 87 92 zeros32 evalFixture (by decide)

/-- C9: the bump stored in a created record (either kind) is exactly the
nonce returned by address derivation for that record's key, and hashing
the preimage again at the stored bump re-derives the record's own address
without re-searching. -/
theorem stored_bump_rederives_address (hash : Bytes → Nat) (off : Nat → Bool)
    (st st' st₂ st₂' : LedgerState) (authority a₂ : Pubkey)
    (project_id p₂ vote_type : Nat) (name : RustStr)
    (score confidence : Nat) (rh rh₂ : Bytes)
    (r : EvaluationRecord) (v : VoteRecord)
    (he : record_evaluation hash off st authority project_id name score confidence rh
      = .ok (st', r))
    (hv : record_vote hash off st₂ a₂ p₂ vote_type rh₂ = .ok (st₂', v)) :
    findProgramAddress hash off evalTag authority project_id =
      some (deriveWithBump hash evalTag authority project_id r.bump, r.bump) ∧
    findProgramAddress hash off voteTag a₂ p₂ =
      some (deriveWithBump hash voteTag a₂ p₂ v.bump, v.bump) :=
  ⟨(record_evaluation_ok _ _ _ _ _ _ _ _ _ _ _ he).1,
   (record_vote_ok _ _ _ _ _ _ _ _ _ hv).1⟩

/-- C9 witness: the bumps stored by one concrete evaluation create and one
concrete vote create re-derive their records' addresses. -/
theorem stored_bump_rederives_address_witness :
    findProgramAddress encBytes offAlways evalTag 3 5 =
      some (deriveWithBump encBytes evalTag 3 5 evalFixture.bump, evalFixture.bump) ∧
    findProgramAddress encBytes offAlways voteTag 1 2 =
      some (deriveWithBump encBytes voteTag 1 2 voteFixtureB.bump, voteFixtureB.bump) :=
  stored_bump_rederives_address encBytes offAlways emptyLedger ledgerAfterEval
    emptyLedger ledgerAfterVote 3 1 5 2 3 (asciiName 10) 87 92 zeros32 zeros32
    evalFixture voteFixtureB (by decide) (by decide)

/-- C10: the derivation hashes the concatenation of the kind tag, the
32-byte authority, the little-endian project id and a nonce byte,
decrementing the nonce from 255; a returned `(addr, n)` is characterized
by `n` being the highest nonce in `0..=255` whose hash lands in the
reserved subspace with `addr` its hash, and derivation returns `none`
exactly when no nonce in the 256-value range works. -/
theorem findProgramAddress_nonce_search (hash : Bytes → Nat) (off : Nat → Bool)
    (tag : Bytes) (authority : Pubkey) (project_id : Nat) :
    (∀ addr n, findProgramAddress hash off tag authority project_id = some (addr, n) ↔
        n ≤ 255 ∧ off (hash (derivePreimage tag authority project_id n)) = true ∧
        addr = hash (derivePreimage tag authority project_id n) ∧
        ∀ m, n < m → m ≤ 255 →
          off (hash (derivePreimage tag authority project_id m)) = false) ∧
    (findProgramAddress hash off tag authority project_id = none ↔
        ∀ m, m ≤ 255 → off (hash (derivePreimage tag authority project_id m)) = false) := by
  constructor
  · intro addr n
    rw [findProgramAddress, findAddressAux_eq_some_iff]
    constructor
    · rintro ⟨h1, h2, h3, h4⟩
      exact ⟨by omega, h2, h3, fun m hm hm' => h4 m hm (by omega)⟩
    · rintro ⟨h1, h2, h3, h4⟩
      exact ⟨by omega, h2, h3, fun m hm hm' => h4 m hm (by omega)⟩
  · rw [findProgramAddress, findAddressAux_eq_none_iff]
    constructor
    · intro h m hm; exact h m (by omega)
    · intro h m hm; exact h m (by omega)

/-- C10 witness: reading the characterization off at a concrete key — with
every address off-curve the search succeeds at the first tried nonce 255. -/
theorem findProgramAddress_nonce_search_witness :
    offAlways (encBytes (derivePreimage evalTag 2 3 255)) = true :=
  (((findProgramAddress_nonce_search encBytes offAlways evalTag 2 3).1
      (encBytes (derivePreimage evalTag 2 3 255)) 255).mp (by decide)).2.1

/-- C2 counterexample: the claim "for every call the stored `project_name`
is the input truncated to its first 64 bytes" fails on a 66-byte name whose
byte index 64 falls inside a multi-byte character — the call stores nothing
at all (the byte slice panics), so no record with the truncated name is
produced. -/
theorem truncation_claim_counterexample :
    ¬ ∃ p : LedgerState × EvaluationRecord,
        record_evaluation encBytes offAlways emptyLedger 0 0 badName63 87 92 zeros32
          = .ok p ∧ p.2.project_name = (strBytes badName63).take 64 := by
  rintro ⟨p, hp, -⟩
  have h : record_evaluation encBytes offAlways emptyLedger 0 0 badName63 87 92 zeros32
      = .error .panicNonCharBoundary := by decide
  rw [h] at hp
  exact Except.noConfusion hp

/-- C2 (amended): whenever the truncation index `min(len, 64)` is a UTF-8
character boundary of `project_name` — always the case for names of at
most 64 bytes and for ASCII names — a create at a fresh address stores
exactly the first `min(len, 64)` bytes: the first 64 bytes when the name
is longer than 64 bytes, the name unmodified when it is 64 bytes or
shorter. -/
theorem record_evaluation_truncates (hash : Bytes → Nat) (off : Nat → Bool)
    (st : LedgerState) (authority : Pubkey) (project_id : Nat) (name : RustStr)
    (score confidence : Nat) (reasoning_hash : Bytes) (addr bump : Nat)
    (hb : isCharBoundary name (min (byteLen name) 64) = true)
    (hf : findProgramAddress hash off evalTag authority project_id = some (addr, bump))
    (habs : lookupSlot st.slots addr = none) :
    record_evaluation hash off st authority project_id name score confidence
      reasoning_hash =
      .ok ({ st with slots := (addr, StoredRecord.eval ⟨authority, project_id,
              (strBytes name).take (min (byteLen name) 64), score, confidence,
              reasoning_hash, st.clock, bump⟩) :: st.slots },
        ⟨authority, project_id, (strBytes name).take (min (byteLen name) 64),
          score, confidence, reasoning_hash, st.clock, bump⟩) ∧
    (byteLen name ≤ 64 → (strBytes name).take (min (byteLen name) 64) = strBytes name) ∧
    (64 ≤ byteLen name →
      (strBytes name).take (min (byteLen name) 64) = (strBytes name).take 64) := by
  refine ⟨record_evaluation_creates hash off st authority project_id name score
    confidence reasoning_hash addr bump _ hf habs
    (truncateName_of_isCharBoundary name hb), ?_, ?_⟩
  · intro hle
    rw [Nat.min_eq_left hle]
    exact List.take_of_length_le (le_of_eq rfl)
  · intro hge
    rw [Nat.min_eq_right hge]

/-- C2 witness: a 100-character ASCII name stores exactly its first
64 bytes (and the 64-byte cut of a 100-byte name is `take 64`). -/
theorem record_evaluation_truncates_witness :
    record_evaluation encBytes offAlways emptyLedger 7 9 (asciiName 100) 87 92 zeros32
      = .ok ({ emptyLedger with slots := (deriveWithBump encBytes evalTag 7 9 255,
              StoredRecord.eval ⟨7, 9,
                (strBytes (asciiName 100)).take (min (byteLen (asciiName 100)) 64),
                87, 92, zeros32, emptyLedger.clock, 255⟩) :: emptyLedger.slots },
          ⟨7, 9, (strBytes (asciiName 100)).take (min (byteLen (asciiName 100)) 64),
            87, 92, zeros32, emptyLedger.clock, 255⟩) ∧
    (byteLen (asciiName 100) ≤ 64 →
      (strBytes (asciiName 100)).take (min (byteLen (asciiName 100)) 64)
        = strBytes (asciiName 100)) ∧
    (64 ≤ byteLen (asciiName 100) →
      (strBytes (asciiName 100)).take (min (byteLen (asciiName 100)) 64)
        = (strBytes (asciiName 100)).take 64) :=
  record_evaluation_truncates encBytes offAlways emptyLedger 7 9 (asciiName 100)
    87 92 zeros32 (deriveWithBump encBytes evalTag 7 9 255) 255
    (by decide) (by decide) (by decide)

/-- C3: contrary to the claim, the truncation step is not total — on a
name of 63 ASCII bytes followed by the 3-byte character U+20AC (66 bytes),
the byte slice index `min(66, 64) = 64` is not a character boundary, the
slice panics, and the instruction aborts instead of storing a truncated
name. -/
theorem record_evaluation_panics_on_multibyte_boundary :
    truncateName badName63 = none ∧
    record_evaluation encBytes offAlways emptyLedger 0 1 badName63 50 60 zeros32
      = .error .panicNonCharBoundary := by
  exact ⟨by decide, by decide⟩

/-- C5: for one key, the evaluation address and the vote address differ
(their kind tags differ and the hash is injective on byte strings up to
negligible collisions), so after a successful `record_evaluation` a
`record_vote` for the very same `(authority, project_id)` still succeeds. -/
theorem eval_vote_independent (hash : Bytes → Nat) (off : Nat → Bool)
    (st st' : LedgerState) (authority : Pubkey) (project_id : Nat)
    (name : RustStr) (score confidence vote_type : Nat) (rh rh₂ : Bytes)
    (r : EvaluationRecord) (eaddr eb vaddr vb : Nat)
    (hinj : ∀ l₁ l₂, ByteList l₁ → ByteList l₂ → hash l₁ = hash l₂ → l₁ = l₂)
    (he : findProgramAddress hash off evalTag authority project_id = some (eaddr, eb))
    (hv : findProgramAddress hash off voteTag authority project_id = some (vaddr, vb))
    (hok : record_evaluation hash off st authority project_id name score confidence rh
      = .ok (st', r))
    (habs : lookupSlot st.slots vaddr = none) :
    eaddr ≠ vaddr ∧
    resultOk (record_vote hash off st' authority project_id vote_type rh₂) = true := by
  have heb := findProgramAddress_bump_lt _ _ _ _ _ _ _ he
  have hvb := findProgramAddress_bump_lt _ _ _ _ _ _ _ hv
  have hea := findProgramAddress_addr_eq _ _ _ _ _ _ _ he
  have hva := findProgramAddress_addr_eq _ _ _ _ _ _ _ hv
  have hne : eaddr ≠ vaddr := by
    intro heq
    have hpre : derivePreimage evalTag authority project_id eb
        = derivePreimage voteTag authority project_id vb :=
      hinj _ _ (derivePreimage_byteList _ _ _ _ (by decide) heb)
        (derivePreimage_byteList _ _ _ _ (by decide) hvb)
        (by rw [← hea, ← hva, heq])
    have htag := (derivePreimage_inj _ _ _ _ _ _ _ _ (by decide) (by decide) hpre).1
    exact absurd htag (by decide)
  refine ⟨hne, ?_⟩
  obtain ⟨hf, -, -, -, -, -, -, -, -, -, hslots⟩ :=
    record_evaluation_ok _ _ _ _ _ _ _ _ _ _ _ hok
  have hEaddr : eaddr = deriveWithBump hash evalTag authority project_id r.bump :=
    congrArg Prod.fst (Option.some.inj (he.symm.trans hf))
  have hlook : lookupSlot st'.slots vaddr = none := by
    rw [hslots, lookupSlot_cons, if_neg (by rw [← hEaddr]; exact hne)]
    exact habs
  rw [record_vote_creates hash off st' authority project_id vote_type rh₂ vaddr vb
    hv hlook]
  rfl

/-- C5 witness: for the key `(3, 5)` the two derived addresses differ and
the vote create issued after the evaluation create succeeds. -/
theorem eval_vote_independent_witness :
    encBytes (derivePreimage evalTag 3 5 255)
      ≠ encBytes (derivePreimage voteTag 3 5 255) ∧
    resultOk (record_vote encBytes offAlways ledgerAfterEval 3 5 9 zeros32) = true :=
  eval_vote_independent encBytes offAlways emptyLedger ledgerAfterEval 3 5
    (asciiName 10) 87 92 9 zeros32 zeros32 evalFixture
    (encBytes (derivePreimage evalTag 3 5 255)) 255
    (encBytes (derivePreimage voteTag 3 5 255)) 255
    encBytes_injOn (by decide) (by decide) (by decide) (by decide)

/-- C7: derivation is injective on logical keys — distinct
`(authority, project_id)` pairs (with the 32-byte and 32-bit type bounds)
yield distinct evaluation addresses, for any hash injective on byte
strings (the negligible-collision assumption). -/
theorem derive_eval_addresses_injective (hash : Bytes → Nat) (off : Nat → Bool)
    (a₁ p₁ a₂ p₂ addr₁ b₁ addr₂ b₂ : Nat)
    (hinj : ∀ l₁ l₂, ByteList l₁ → ByteList l₂ → hash l₁ = hash l₂ → l₁ = l₂)
    (ha₁ : a₁ < 2 ^ 256) (ha₂ : a₂ < 2 ^ 256)
    (hp₁ : p₁ < 2 ^ 32) (hp₂ : p₂ < 2 ^ 32)
    (hne : (a₁, p₁) ≠ (a₂, p₂))
    (h₁ : findProgramAddress hash off evalTag a₁ p₁ = some (addr₁, b₁))
    (h₂ : findProgramAddress hash off evalTag a₂ p₂ = some (addr₂, b₂)) :
    addr₁ ≠ addr₂ := by
  intro heq
  have hb₁ := findProgramAddress_bump_lt _ _ _ _ _ _ _ h₁
  have hb₂ := findProgramAddress_bump_lt _ _ _ _ _ _ _ h₂
  have he₁ := findProgramAddress_addr_eq _ _ _ _ _ _ _ h₁
  have he₂ := findProgramAddress_addr_eq _ _ _ _ _ _ _ h₂
  have hpre := hinj _ _ (derivePreimage_byteList evalTag a₁ p₁ b₁ (by decide) hb₁)
    (derivePreimage_byteList evalTag a₂ p₂ b₂ (by decide) hb₂)
    (by rw [← he₁, ← he₂, heq])
  obtain ⟨-, hpub, hpid, -⟩ :=
    derivePreimage_inj _ _ _ _ _ _ _ _ (by decide) (by decide) hpre
  have h256 : (256 : Nat) ^ 32 = 2 ^ 256 := by norm_num
  have h32 : (256 : Nat) ^ 4 = 2 ^ 32 := by norm_num
  have ha : a₁ = a₂ :=
    natToLeBytes_inj 32 a₁ a₂ (by rw [h256]; exact ha₁) (by rw [h256]; exact ha₂) hpub
  have hp : p₁ = p₂ :=
    natToLeBytes_inj 4 p₁ p₂ (by rw [h32]; exact hp₁) (by rw [h32]; exact hp₂) hpid
  exact hne (by rw [ha, hp])

/-- C7 witness: the keys `(0, 0)` and `(1, 0)` derive different
evaluation addresses under the concrete injective hash. -/
theorem derive_eval_addresses_injective_witness :
    encBytes (derivePreimage evalTag 0 0 255)
      ≠ encBytes (derivePreimage evalTag 1 0 255) :=
  derive_eval_addresses_injective encBytes offAlways 0 0 1 0
    (encBytes (derivePreimage evalTag 0 0 255)) 255
    (encBytes (derivePreimage evalTag 1 0 255)) 255
    encBytes_injOn (by norm_num) (by norm_num) (by norm_num) (by norm_num)
    (by decide) (by decide) (by decide)

/-- C8: records are immutable — a record present in a slot is still
present, byte for byte, after every sequence of reachable transitions of
the exposed surface (`record_evaluation` and `record_vote` are the only
entry points; there is no update or delete step). -/
theorem records_immutable (hash : Bytes → Nat) (off : Nat → Bool)
    (st st' : LedgerState) (addr : Nat) (rec0 : StoredRecord)
    (hpres : lookupSlot st.slots addr = some rec0)
    (hreach : Relation.ReflTransGen (LedgerStep hash off) st st') :
    lookupSlot st'.slots addr = some rec0 := by
  induction hreach with
  | refl => exact hpres
  | tail hab hbc ih => exact lookupSlot_preserved _ _ _ _ _ _ hbc ih

/-- C8 witness: the vote record at address 999 survives a concrete
evaluation create unchanged. -/
theorem records_immutable_witness :
    lookupSlot ledgerAfterEvalB.slots 999 = some (.vote voteFixture) :=
  records_immutable encBytes offAlways ledgerWithVote ledgerAfterEvalB 999
    (.vote voteFixture) (by decide)
    (Relation.ReflTransGen.single
      (LedgerStep.eval 3 5 (asciiName 4) 11 12 zeros32 evalFixtureB (by decide)))

end AgentPulse
